import Mathlib

/-!
Verification of the BrickLayers web application (m3dp_Orcaslicer_Script_Runner).

This file gives a shallow embedding, in Lean 4, of the parts of the Python
source that the specification claims talk about:

* `app/services/file_service.py` — filename validation and sanitization,
  G-code sniffing, path derivation.
* `app/services/processing_service.py` — the in-memory job registry,
  cancellation and the timeout supervisor.
* `app/routers/jobs.py` together with `app/models/processing.py` — the
  status endpoint and the `JobStatus` enumeration.
* `app/services/cleanup_service.py` — the retention sweeper.
* `app/routers/upload.py` — the error-to-HTTP mapping of the upload handler.

Strings are modelled as `List Char`; bytes as `List Nat` (each < 256).
The Unicode-aware Python regex classes `\w` and `\s` are not hard-coded:
every definition that uses them is parameterized by the classifier
(`w`, `s : Char → Bool`), so the embedding is faithful for the classifier
CPython actually uses; theorems about these functions hold for every
classifier, taking the handful of facts they need about `\w` (underscore
is a word character, the path separators and NUL are not) as explicit
hypotheses, each of which is true of CPython.  `asciiWord` and
`asciiSpace` are the ASCII fragments of the two classes; they are used
only to instantiate closed evaluations whose inputs are pure ASCII, and
on ASCII characters they agree with CPython's classifiers.  Literal ASCII
classes of the source such as `[0-9.-]` are embedded directly.
Timestamps (`datetime.now()`) are passed in explicitly as numbers.
Filesystem effects are made explicit: a file on disk is a value, deletion
replaces it by `none`.
-/

/-! ### Character classes

The classifiers for `\w` and `\s` are parameters everywhere; the two
definitions below are their ASCII fragments, used to instantiate closed
theorems at ASCII-only inputs (where CPython's Unicode-aware classifiers
agree with them). -/

/-- ASCII fragment of the Python regex class `\w`: letters, digits and
underscore. -/
def asciiWord (c : Char) : Bool :=
  c.isAlphanum || c == '_'

/-- ASCII fragment of the Python regex class `\s`. -/
def asciiSpace (c : Char) : Bool :=
  c == ' ' || c == '\t' || c == '\n' || c == '\r' || c == '\x0b' || c == '\x0c'

/-- A character kept unchanged by `re.sub(r"[^\w.-]", "_", name)` in
`FileService.sanitize_filename`: word characters (`w` models the
Unicode-aware `\w`), dot and dash. -/
def safeChar (w : Char → Bool) (c : Char) : Bool :=
  w c || c == '.' || c == '-'

/-! ### `pathlib` stem/suffix splitting

`Path(filename).stem` / `.suffix` first reduce to the last path component
(the part after the last `/`), then split at the last dot, provided that
dot is neither the first nor the last character of the name.  We embed
exactly that; `pathlib` normalization of trailing slashes and bare dot
components is outside the model (no claim exercises it). -/

/-- The part of the string after the last `/` (the `Path.name` component). -/
def pathNameComponent (l : List Char) : List Char :=
  (l.reverse.takeWhile (fun c => !(c == '/'))).reverse

/-- Index of the last dot of the list, if any. -/
def lastDotIdx : List Char → Option Nat
  | [] => none
  | c :: rest =>
    match lastDotIdx rest with
    | some j => some (j + 1)
    | none => if c == '.' then some 0 else none

/-- `(Path(name).stem, Path(name).suffix)` for a bare name: split at the
last dot when that dot is at a position `i` with `0 < i < length - 1`,
otherwise the suffix is empty. -/
def pathSplit (l : List Char) : List Char × List Char :=
  match lastDotIdx l with
  | some i => if 0 < i ∧ i + 1 < l.length then (l.take i, l.drop i) else (l, [])
  | none => (l, [])

/-! ### `FileService.sanitize_filename` -/

/-- One character of `re.sub(r"[^\w.-]", "_", name)`. -/
def subChar (w : Char → Bool) (c : Char) : Char :=
  if safeChar w c then c else '_'

/-- `re.sub(r"[^\w.-]", "_", name)`: replace every unsafe character of the
stem by an underscore. -/
def subStem (w : Char → Bool) (l : List Char) : List Char :=
  l.map (subChar w)

/-- `re.sub(r"_+", "_", name)`: collapse every run of underscores to a
single underscore (an underscore followed by an underscore is dropped). -/
def collapse : List Char → List Char
  | [] => []
  | [a] => [a]
  | a :: b :: r => if a == '_' && b == '_' then collapse (b :: r) else a :: collapse (b :: r)

/-- `name.strip("_")`: remove leading and trailing underscores. -/
def stripU (l : List Char) : List Char :=
  ((l.dropWhile (fun c => c == '_')).reverse.dropWhile (fun c => c == '_')).reverse

/-- The length cap of `sanitize_filename`: `if len(name) > 100: name = name[:100]`. -/
def truncateStem (l : List Char) : List Char :=
  if l.length > 100 then l.take 100 else l

/-- The stem-cleaning pipeline of `FileService.sanitize_filename`:
replace unsafe characters, collapse underscore runs, trim underscores,
truncate to 100 characters. -/
def cleanStem (w : Char → Bool) (l : List Char) : List Char :=
  truncateStem (stripU (collapse (subStem w l)))

/-- `FileService.sanitize_filename`: split into stem and extension, clean
the stem, and re-attach the extension exactly as `Path(filename).suffix`
returned it (the source does not lowercase it). -/
def sanitize_filename (w : Char → Bool) (filename : List Char) : List Char :=
  let n := pathNameComponent filename
  let p := pathSplit n
  cleanStem w p.1 ++ p.2

/-! ### `FileService.validate_filename` -/

/-- `".." in filename`: two consecutive dots occur somewhere. -/
def hasDotDot : List Char → Bool
  | a :: b :: r => (a == '.' && b == '.') || hasDotDot (b :: r)
  | _ => false

/-- A character admitted by the regex `^[\w\s.-]+$` of
`FileService.validate_filename` (`w` and `s` model the Unicode-aware
`\w` and `\s`). -/
def validChar (w s : Char → Bool) (c : Char) : Bool :=
  w c || s c || c == '.' || c == '-'

/-- `FileService.validate_filename`: reject empty names, names containing
`..`, `/`, `\`, a NUL byte, or any character outside `[\w\s.-]`.
Returns `true` when the filename is accepted (no exception raised). -/
def validate_filename (w s : Char → Bool) (filename : List Char) : Bool :=
  !(filename.isEmpty) &&
  !(hasDotDot filename) &&
  !(filename.contains '/') &&
  !(filename.contains '\\') &&
  !(filename.contains (Char.ofNat 0)) &&
  filename.all (validChar w s)

/-! ### Path derivation (`get_upload_path` / `get_output_path`) -/

/-- `FileService.get_upload_path`: `UPLOAD_DIR / f"{job_id}_{safe}"` with
`safe = sanitize_filename(filename)`.  The directory is a parameter (a
`Settings` value). -/
def get_upload_path (w : Char → Bool) (uploadDir jobId filename : List Char) :
    List Char :=
  uploadDir ++ '/' :: (jobId ++ '_' :: sanitize_filename w filename)

/-- `FileService.get_output_path`: `OUTPUT_DIR / f"{job_id}_{stem}_processed{ext}"`
computed from the sanitized filename. -/
def get_output_path (w : Char → Bool) (outputDir jobId filename : List Char) :
    List Char :=
  let safe := sanitize_filename w filename
  let p := pathSplit safe
  outputDir ++ '/' :: (jobId ++ '_' :: (p.1 ++ ('_' :: "processed".data) ++ p.2))

/-! ### `FileService.validate_gcode_content`

The source decodes the head chunk with `bytes.decode("utf-8", errors="ignore")`
and then counts how many of six regular expressions find a match.  We embed a
UTF-8 decoder over byte lists with the maximal-subpart error policy of
CPython: an invalid sequence is dropped under `errors="ignore"` and becomes
one U+FFFD under `errors="replace"` (the latter is used only to state the
claim, which speaks of replacement). -/

/-- A UTF-8 continuation byte. -/
def isContByte (b : Nat) : Bool :=
  0x80 ≤ b && b ≤ 0xBF

/-- Lower bound for the second byte of a multi-byte sequence headed by `b`
(UTF-8 shortest-form and surrogate restrictions). -/
def utf8SecondLo (b : Nat) : Nat :=
  if b == 0xE0 then 0xA0 else if b == 0xF0 then 0x90 else 0x80

/-- Upper bound for the second byte of a multi-byte sequence headed by `b`. -/
def utf8SecondHi (b : Nat) : Nat :=
  if b == 0xED then 0x9F else if b == 0xF4 then 0x8F else 0xBF

/-- What one decoding error produces: nothing under `ignore`, one
replacement character under `replace`. -/
def utf8Err (replace : Bool) : List Char :=
  if replace then [Char.ofNat 0xFFFD] else []

/-- Worker for `utf8Decode`.  The fuel argument only forces termination: it
is initialized to the length of the byte list and every step consumes at
least one byte, so the zero-fuel branch is never reached. -/
def utf8DecodeGo (replace : Bool) : Nat → List Nat → List Char
  | _, [] => []
  | 0, _ :: _ => []
  | fuel + 1, b :: rest =>
    if b ≤ 0x7F then Char.ofNat b :: utf8DecodeGo replace fuel rest
    else if 0xC2 ≤ b ∧ b ≤ 0xDF then
      match rest with
      | [] => utf8Err replace
      | b2 :: rest2 =>
        if isContByte b2 then
          Char.ofNat ((b - 0xC0) * 0x40 + (b2 - 0x80)) :: utf8DecodeGo replace fuel rest2
        else utf8Err replace ++ utf8DecodeGo replace fuel rest
    else if 0xE0 ≤ b ∧ b ≤ 0xEF then
      match rest with
      | [] => utf8Err replace
      | b2 :: rest2 =>
        if utf8SecondLo b ≤ b2 ∧ b2 ≤ utf8SecondHi b then
          match rest2 with
          | [] => utf8Err replace
          | b3 :: rest3 =>
            if isContByte b3 then
              Char.ofNat ((b - 0xE0) * 0x1000 + (b2 - 0x80) * 0x40 + (b3 - 0x80)) ::
                utf8DecodeGo replace fuel rest3
            else utf8Err replace ++ utf8DecodeGo replace fuel rest2
        else utf8Err replace ++ utf8DecodeGo replace fuel rest
    else if 0xF0 ≤ b ∧ b ≤ 0xF4 then
      match rest with
      | [] => utf8Err replace
      | b2 :: rest2 =>
        if utf8SecondLo b ≤ b2 ∧ b2 ≤ utf8SecondHi b then
          match rest2 with
          | [] => utf8Err replace
          | b3 :: rest3 =>
            if isContByte b3 then
              match rest3 with
              | [] => utf8Err replace
              | b4 :: rest4 =>
                if isContByte b4 then
                  Char.ofNat ((b - 0xF0) * 0x40000 + (b2 - 0x80) * 0x1000 +
                      (b3 - 0x80) * 0x40 + (b4 - 0x80)) :: utf8DecodeGo replace fuel rest4
                else utf8Err replace ++ utf8DecodeGo replace fuel rest3
            else utf8Err replace ++ utf8DecodeGo replace fuel rest2
        else utf8Err replace ++ utf8DecodeGo replace fuel rest
    else utf8Err replace ++ utf8DecodeGo replace fuel rest

/-- UTF-8 decoding of a byte list, with the CPython error policy selected
by `replace` (`false` models `errors="ignore"`, `true` models
`errors="replace"`). -/
def utf8Decode (replace : Bool) (l : List Nat) : List Char :=
  utf8DecodeGo replace l.length l

/-- `re.search` for a pattern of the shape letter-followed-by-one-class-char:
true when some position holds `a` satisfying `p` immediately followed by a
character satisfying `q` (this is exactly when `p-char q-char+` matches). -/
def searchPair (p q : Char → Bool) : List Char → Bool
  | a :: b :: r => (p a && q b) || searchPair p q (b :: r)
  | _ => false

/-- `re.search(r"L[0-9]+", s)` for a command letter `L` (`G` or `M`). -/
def matchNum (letter : Char) (s : List Char) : Bool :=
  searchPair (fun c => c == letter) Char.isDigit s

/-- `re.search(r"L[0-9.-]+", s)` for a coordinate letter `L` (`X`, `Y`, `Z`).
Note the class also admits a bare dot or dash after the letter. -/
def matchCoord (letter : Char) (s : List Char) : Bool :=
  searchPair (fun c => c == letter) (fun c => c.isDigit || c == '.' || c == '-') s

/-- The six G-code patterns of `FileService.validate_gcode_content`, in
source order. -/
def gcodePatterns : List (List Char → Bool) :=
  [matchNum 'G', matchNum 'M', matchCoord 'X', matchCoord 'Y', matchCoord 'Z',
    fun s => s.contains ';']

/-- `FileService.validate_gcode_content`: decode the head chunk as UTF-8
with `errors="ignore"`, count the patterns that match, and accept exactly
when at least 3 match (otherwise the source raises `FileValidationError`). -/
def validate_gcode_content (content : List Nat) : Bool :=
  let s := utf8Decode false content
  decide (3 ≤ gcodePatterns.countP (fun p => p s))

/-- The number of distinct matching patterns, as an explicit sum over the
six patterns (used to restate the acceptance condition). -/
def gcodePatternHits (s : List Char) : Nat :=
  (cond (matchNum 'G' s) 1 0) + (cond (matchNum 'M' s) 1 0) +
  (cond (matchCoord 'X' s) 1 0) + (cond (matchCoord 'Y' s) 1 0) +
  (cond (matchCoord 'Z' s) 1 0) + (cond (s.contains ';') 1 0)

/-- ASCII bytes of a string (every character below 128). -/
def asciiBytes (l : List Char) : List Nat :=
  l.map Char.toNat

/-! Claim-side formalization of the sniffing sentence of the spec: decode
with replacement and require 3 distinct matches from the set
`G<digits>, M<digits>, X<signed-decimal>, Y<signed-decimal>, Z<signed-decimal>, ;`
where a signed decimal starts with an optional minus sign followed by a
digit. -/

/-- Occurrence of coordinate letter `L` followed by a signed decimal:
the letter, an optional minus sign, then a digit. -/
def searchSignedCoord (letter : Char) : List Char → Bool
  | a :: b :: r =>
    (a == letter &&
      (b.isDigit ||
        (b == '-' && (match r with | c :: _ => c.isDigit | [] => false)))) ||
    searchSignedCoord letter (b :: r)
  | _ => false

/-- Number of distinct matches from the pattern set exactly as the claim
words it (signed decimals after coordinate letters). -/
def specPatternHits (s : List Char) : Nat :=
  (cond (matchNum 'G' s) 1 0) + (cond (matchNum 'M' s) 1 0) +
  (cond (searchSignedCoord 'X' s) 1 0) + (cond (searchSignedCoord 'Y' s) 1 0) +
  (cond (searchSignedCoord 'Z' s) 1 0) + (cond (s.contains ';') 1 0)

/-- The sniffing acceptance condition exactly as claimed: decode as UTF-8
with replacement, accept when at least 3 distinct claimed patterns match. -/
def claimSniffAccepts (content : List Nat) : Bool :=
  decide (3 ≤ specPatternHits (utf8Decode true content))

/-! ### Spec-side restatements of `sanitize`

For the refinement claim about `sanitize_filename`, the specification
sentence is formalized independently: one left-to-right scan that replaces
unsafe characters and collapses underscore runs in a single pass, a
reverse-free trim, the 100-character cap, and the extension re-attached.
The original claim additionally lowercases the extension; that variant is
kept separately so the divergence can be exhibited. -/

/-- One-pass scan of the spec sentence: replace any character outside
`[\w.-]` by an underscore and never emit two underscores in a row.  The
flag records whether the previously emitted character was an underscore;
`w` is the word-character classifier. -/
def specScan (w : Char → Bool) : Bool → List Char → List Char
  | _, [] => []
  | prevU, c :: rest =>
    if w c || c == '.' || c == '_' || c == '-' then
      if c == '_' then
        if prevU then specScan w true rest else '_' :: specScan w true rest
      else c :: specScan w false rest
    else if prevU then specScan w true rest else '_' :: specScan w true rest

/-- Trim trailing underscores, written recursively (no reverse). -/
def dropTrailingU : List Char → List Char
  | [] => []
  | a :: r =>
    match dropTrailingU r with
    | [] => if a == '_' then [] else [a]
    | b :: r2 => a :: b :: r2

/-- Trim leading then trailing underscores, spec-side formulation. -/
def specTrim (l : List Char) : List Char :=
  dropTrailingU (l.dropWhile (fun c => c == '_'))

/-- The spec sentence for `sanitize`, as amended (extension re-attached
unchanged): strip the extension, clean the stem in one pass, trim
underscores, truncate the stem to 100 characters, re-attach the extension. -/
def sanitizeSpecAmended (w : Char → Bool) (filename : List Char) : List Char :=
  let n := pathNameComponent filename
  let p := pathSplit n
  truncateStem (specTrim (specScan w false p.1)) ++ p.2

/-- The spec sentence for `sanitize` exactly as originally claimed: same
pipeline but with the extension lowercased before re-attachment. -/
def sanitizeClaimed (w : Char → Bool) (filename : List Char) : List Char :=
  let n := pathNameComponent filename
  let p := pathSplit n
  truncateStem (specTrim (specScan w false p.1)) ++ p.2.map Char.toLower

/-! ### `ProcessingService` — job registry, cancellation, timeout

`ProcessingJob` mirrors the dataclass of `processing_service.py`.  Job
states are the plain strings the source uses.  `datetime.now()` is passed
in as a number; the extrusion multiplier (a Python float never computed
with in the modelled code) is carried as a rational. -/

structure ProcessingJob where
  job_id : String
  filename : String
  start_at_layer : Int
  extrusion_multiplier : Rat
  priority : Nat
  status : String
  created_at : Nat
  updated_at : Nat
  error : Option String
  upload_path : Option String
  output_path : Option String
  cancel_requested : Bool
deriving DecidableEq, Repr

/-- The tuple of terminal states tested by `ProcessingService.cancel_job`
(line 126 of `processing_service.py`). -/
def terminalStatuses : List String :=
  ["completed", "failed", "timeout", "cancelled"]

/-- `ProcessingService.cancel_job`: `None` models a registry miss.  For a
found job: terminal states are rejected with no mutation; otherwise the
cancel flag is set and a `pending` job goes straight to `cancelled` with
an error message, any other (`processing`, `cancelling`, ...) goes to
`cancelling`.  Returns the boolean result together with the job record
after the call. -/
def cancel_job (now : Nat) : Option ProcessingJob → Bool × Option ProcessingJob
  | none => (false, none)
  | some job =>
    if terminalStatuses.contains job.status then (false, some job)
    else if job.status == "pending" then
      (true, some { job with cancel_requested := true, status := "cancelled",
                             updated_at := now, error := some "Cancelled by user" })
    else
      (true, some { job with cancel_requested := true, status := "cancelling",
                             updated_at := now })

/-- The error message written by the timeout handler of
`ProcessingService.process_with_timeout`. -/
def timeoutMessage (limit : Nat) : String :=
  "Processing timed out after " ++ toString limit ++ " seconds"

/-- The timeout supervision of `ProcessingService.process_with_timeout`:
`timedOut` tells whether `future.result(timeout=PROCESSING_TIMEOUT)` raised
`TimeoutError`.  On timeout the looked-up job (if registered) is marked
`failed` — not `timeout` — with the message naming the limit; otherwise
this function changes nothing (the worker body mutates the job itself). -/
def process_with_timeout (limit now : Nat) (timedOut : Bool)
    (job : Option ProcessingJob) : Option ProcessingJob :=
  if timedOut then
    match job with
    | some j => some { j with status := "failed", updated_at := now,
                              error := some (timeoutMessage limit) }
    | none => none
  else job

/-! ### `GET /status/{id}` (`routers/jobs.py` + `models/processing.py`) -/

/-- The `JobStatus` enumeration of `app/models/processing.py` — it has
exactly four members. -/
inductive JobStatus where
  | pending
  | processing
  | completed
  | failed
deriving DecidableEq, Repr

/-- `JobStatus(value)`: the enum lookup performed by `get_job_status`.
`none` models the `ValueError` that Python raises for any other string. -/
def JobStatus.ofStatusString : String → Option JobStatus :=
  fun s =>
    if s == "pending" then some .pending
    else if s == "processing" then some .processing
    else if s == "completed" then some .completed
    else if s == "failed" then some .failed
    else none

/-- The body built by `get_job_status` for a found job. -/
structure JobStatusBody where
  job_id : String
  filename : String
  status : JobStatus
  created_at : Nat
  updated_at : Nat
  error : Option String
deriving DecidableEq, Repr

/-- Outcome of `GET /status/{id}`: a 200 with the body, an explicit
problem-details JSON response, or an unhandled exception which the server
surfaces as HTTP 500. -/
inductive StatusReply where
  | ok (body : JobStatusBody)
  | problem (title : String) (status : Nat) (detail : String)
  | serverError
deriving DecidableEq, Repr

/-- HTTP status code of a `StatusReply`. -/
def statusReplyCode : StatusReply → Nat
  | .ok _ => 200
  | .problem _ s _ => s
  | .serverError => 500

/-- `get_job_status` of `routers/jobs.py`: unknown id gives a 404 problem
body; a found job is converted with `JobStatus(job.status)`, which raises
`ValueError` for any status string outside the four enum members — the
exception is unhandled, so the server answers 500. -/
def get_job_status : Option ProcessingJob → StatusReply
  | none => .problem "Job not found" 404 "Job not found"
  | some j =>
    match JobStatus.ofStatusString j.status with
    | some st =>
      .ok { job_id := j.job_id, filename := j.filename, status := st,
            created_at := j.created_at, updated_at := j.updated_at, error := j.error }
    | none => .serverError

/-! ### Upload capture (`save_upload_streaming`) and the upload handler

`upload_file` in `routers/upload.py` calls
`file_service.save_upload_streaming(job_id, filename, file, validate_size=True)`
and catches `FileTooLargeError` (413) and `FileValidationError` (400), but
neither `save_upload_streaming` nor `FileTooLargeError` exists anywhere in
the source tree (`file_service.py` only has the non-checking
`save_upload`).  The capture operation is therefore modelled from the
spec. -/

/-- Result of the upload capture. -/
inductive CaptureOutcome where
  | ok (size : Nat) (headChunk : List Nat)
  | fileTooLarge
  | emptyFile
deriving DecidableEq, Repr

/-- The read size of the capture loop: 8 KiB. -/
def uploadChunkSize : Nat := 8192

/-- Modelled from the spec: the loop body of `save_upload_streaming`
(absent from the source tree; spec §4.1 `capture_upload`).  Reads the
stream in chunks of at most 8 KiB, appends each chunk to the file on disk
while keeping a running byte count; as soon as the count would exceed
`maxSize` the copy is aborted, the partial file is deleted (disk component
`none`) and the outcome is `fileTooLarge`.  An exhausted stream of total
size zero is `emptyFile`; otherwise the first up-to-2048 bytes are
returned as the head chunk. -/
def captureLoop (maxSize : Nat) (written stream : List Nat) :
    Option (List Nat) × CaptureOutcome :=
  match stream with
  | [] =>
    if written.isEmpty then (none, .emptyFile)
    else (some written, .ok written.length (written.take 2048))
  | a :: l =>
    let c := (a :: l).take uploadChunkSize
    if written.length + c.length > maxSize then (none, .fileTooLarge)
    else captureLoop maxSize (written ++ c) ((a :: l).drop uploadChunkSize)
termination_by stream.length
decreasing_by simp [List.length_drop, List.length_cons, uploadChunkSize]; omega

/-- Modelled from the spec: `FileService.save_upload_streaming` (absent
from the source tree).  Streams the upload to disk with incremental size
validation; returns the file left on disk (if any) and the outcome. -/
def save_upload_streaming (maxSize : Nat) (stream : List Nat) :
    Option (List Nat) × CaptureOutcome :=
  captureLoop maxSize [] stream

/-- The HTTP status chosen by `upload_file` in `routers/upload.py` for
each capture outcome: `FileTooLargeError` is answered with 413,
`FileValidationError` (empty file) with 400, success with 201. -/
def uploadCaptureHttpStatus : CaptureOutcome → Nat
  | .ok _ _ => 201
  | .fileTooLarge => 413
  | .emptyFile => 400

/-! ### `CleanupService.run_once` -/

/-- One directory entry as the sweeper sees it: a name, whether it is a
regular file, its modification time (seconds), and whether `stat`/`unlink`
raises `OSError` for it (permission problems and the like). -/
structure FsEntry where
  name : String
  is_file : Bool
  mtime : Int
  os_error : Bool
deriving DecidableEq, Repr

/-- The per-file predicate of the sweep: a regular file whose age exceeds
the retention window and whose deletion succeeds. -/
def sweepDeletes (now retention : Int) (e : FsEntry) : Bool :=
  e.is_file && !e.os_error && decide (now - e.mtime > retention)

/-- The inner loop of `CleanupService.run_once` over one directory
listing: non-files are skipped; for each regular file the age test runs and
deletion is attempted when it is older than the retention window; an
`OSError` on one file is logged and ignored, leaving that file in place
and the loop running.  Returns the surviving entries and the deletion
count. -/
def sweepDir (now retention : Int) : List FsEntry → List FsEntry × Nat
  | [] => ([], 0)
  | e :: rest =>
    let r := sweepDir now retention rest
    if !e.is_file then (e :: r.1, r.2)
    else if e.os_error then (e :: r.1, r.2)
    else if now - e.mtime > retention then (r.1, r.2 + 1)
    else (e :: r.1, r.2)

/-- `CleanupService.run_once`: sweep `UPLOAD_DIR` then `OUTPUT_DIR`.  A
directory is `none` when it does not exist, in which case it is skipped
and contributes no entry to the returned count mapping.  Returns the
directories after the pass and the association list of per-directory
deletion counts. -/
def run_once (now retention : Int) :
    List (String × Option (List FsEntry)) →
    List (String × Option (List FsEntry)) × List (String × Nat)
  | [] => ([], [])
  | (p, none) :: rest =>
    let r := run_once now retention rest
    ((p, none) :: r.1, r.2)
  | (p, some es) :: rest =>
    let d := sweepDir now retention es
    let r := run_once now retention rest
    ((p, some d.1) :: r.1, (p, d.2) :: r.2)

/-! ### Sample jobs used by closed witnesses and counterexamples -/

/-- A freshly registered job, as `register_job` creates it. -/
def pendingJob : ProcessingJob :=
  { job_id := "j1", filename := "part.gcode", start_at_layer := 3,
    extrusion_multiplier := 1, priority := 1, status := "pending",
    created_at := 0, updated_at := 0, error := none,
    upload_path := some "temp/uploads/j1_part.gcode",
    output_path := some "temp/outputs/j1_part_processed.gcode",
    cancel_requested := false }

/-- The same job once the worker has picked it up. -/
def processingJob : ProcessingJob :=
  { pendingJob with status := "processing" }

/-- The same job after a cancellation request was observed mid-run. -/
def cancellingJob : ProcessingJob :=
  { pendingJob with status := "cancelling", cancel_requested := true }

/-- A concrete 103-character ASCII filename whose cleaned stem is 101
characters long: sanitizing it truncates the stem to 100 characters,
exposing a trailing underscore.  Used by the idempotence counterexample. -/
def longTailName : List Char :=
  List.replicate 99 'a' ++ "_b.g".data

/-- A list has no two adjacent underscores.  This invariant of the
collapse step is used to prove its fixed points. -/
def noDU : List Char → Bool
  | a :: b :: r => !(a == '_' && b == '_') && noDU (b :: r)
  | _ => true


/-! ## Theorems -/

/-! ### C9 — the retention sweep -/

theorem sweepDir_spec (now retention : Int) (es : List FsEntry) :
    sweepDir now retention es =
      (es.filter (fun e => !sweepDeletes now retention e),
       (es.filter (sweepDeletes now retention)).length) := by
  induction es with
  | nil => rfl
  | cons e rest ih =>
    by_cases hf : e.is_file
    · by_cases he : e.os_error
      · simp [sweepDir, sweepDeletes, hf, he, ih, List.filter_cons]
      · by_cases ha : now - e.mtime > retention
        · simp [sweepDir, sweepDeletes, hf, he, ha, ih, List.filter_cons]
        · simp [sweepDir, sweepDeletes, hf, he, ha, ih, List.filter_cons]
    · simp [sweepDir, sweepDeletes, hf, ih, List.filter_cons]

/-- C9: in one sweep pass, every regular file strictly older than the
retention window whose deletion does not raise is removed, every other
entry (younger files, non-files, and files whose `stat`/`unlink` raises
`OSError`) is left in place — so one failing file never stops the sweep —
and each existing directory reports a count equal to the number of files
actually deleted from it; a missing directory is skipped and reports no
count. -/
theorem C9_run_once_spec (now retention : Int)
    (dirs : List (String × Option (List FsEntry))) :
    run_once now retention dirs =
      (dirs.map (fun d =>
          (d.1, d.2.map (fun es => es.filter (fun e => !sweepDeletes now retention e)))),
       dirs.filterMap (fun d =>
          d.2.map (fun es => (d.1, (es.filter (sweepDeletes now retention)).length)))) := by
  induction dirs with
  | nil => rfl
  | cons d rest ih =>
    rcases d with ⟨p, es?⟩
    cases es? with
    | none => simp [run_once, ih]
    | some es => simp [run_once, ih, sweepDir_spec]

/-! ### C3 and C10 — cancellation -/

/-- C3: for a registered job, `cancel_job` rejects the request without any
mutation when the state is terminal; otherwise it sets the cancel flag
and moves a `pending` job straight to `cancelled` with the message
`Cancelled by user`, and a `processing` job to `cancelling`, bumping
`updated_at` in both cases. -/
theorem C3_cancel_job_transitions (j : ProcessingJob) (now : Nat) :
    (j.status = "pending" →
      cancel_job now (some j) =
        (true, some { j with cancel_requested := true, status := "cancelled",
                             updated_at := now, error := some "Cancelled by user" })) ∧
    (j.status = "processing" →
      cancel_job now (some j) =
        (true, some { j with cancel_requested := true, status := "cancelling",
                             updated_at := now })) ∧
    (j.status ∈ terminalStatuses →
      cancel_job now (some j) = (false, some j)) := by
  refine ⟨fun h => ?_, fun h => ?_, fun h => ?_⟩
  · simp [cancel_job, terminalStatuses, h]
  · simp [cancel_job, terminalStatuses, h]
  · simp [cancel_job, h]

theorem C3_witness :
    pendingJob.status = "pending" ∧
    cancel_job 5 (some pendingJob) =
      (true, some { pendingJob with cancel_requested := true, status := "cancelled",
                                    updated_at := 5, error := some "Cancelled by user" }) :=
  ⟨rfl, (C3_cancel_job_transitions pendingJob 5).1 rfl⟩

/-- C10: a job already in state `cancelling` is accepted again rather than
rejected — `cancel_job` returns `true`, keeps the state `cancelling`,
keeps the cancel flag set and bumps `updated_at` — and the call is
rejected exactly when the state is one of the four terminal states. -/
theorem C10_cancel_cancelling (j : ProcessingJob) (now : Nat) :
    (j.status = "cancelling" →
      cancel_job now (some j) =
        (true, some { j with cancel_requested := true, status := "cancelling",
                             updated_at := now })) ∧
    ((cancel_job now (some j)).1 = false ↔ j.status ∈ terminalStatuses) := by
  constructor
  · intro h
    simp [cancel_job, terminalStatuses, h]
  · by_cases h : j.status ∈ terminalStatuses
    · simp [cancel_job, h]
    · have h2 : ¬(j.status = "completed" ∨ j.status = "failed" ∨
          j.status = "timeout" ∨ j.status = "cancelled") := by
        simpa [terminalStatuses] using h
      by_cases hp : j.status = "pending" <;>
        simp [cancel_job, hp, terminalStatuses, h2]

theorem C10_witness :
    cancellingJob.status = "cancelling" ∧
    cancel_job 9 (some cancellingJob) =
      (true, some { cancellingJob with cancel_requested := true, status := "cancelling",
                                       updated_at := 9 }) :=
  ⟨rfl, (C10_cancel_cancelling cancellingJob 9).1 rfl⟩

/-! ### C1 — the timeout supervisor -/

/-- C1 fails on the code: when the processing future misses the deadline,
`process_with_timeout` marks the job `failed`, not `timeout`. -/
theorem C1_counterexample :
    (process_with_timeout 900 7 true (some processingJob)).map ProcessingJob.status =
      some "failed" ∧
    ("failed" : String) ≠ "timeout" := by
  constructor
  · rfl
  · decide

/-- C1 (amended): on deadline expiry the job transitions to the terminal
state `failed` (terminal per the tuple `cancel_job` tests), with
`error` naming the timeout limit; the `timeout` state of the spec is never
assigned by this code path. -/
theorem C1_timeout_marks_failed (limit now : Nat) (j : ProcessingJob) :
    process_with_timeout limit now true (some j) =
      some { j with status := "failed", updated_at := now,
                    error := some (timeoutMessage limit) } ∧
    terminalStatuses.contains "failed" = true := by
  exact ⟨rfl, by decide⟩

/-! ### C4 — the status endpoint -/

/-- C4 is right and the code is wrong: polling the status of a job in
state `cancelled` (produced by the code itself via `cancel_job` on a
pending job) makes `JobStatus(job.status)` raise `ValueError` because the
enum has only the four members `pending`, `processing`, `completed`,
`failed`; the endpoint answers 500, not 200.  Unknown ids do get the
documented 404 problem body. -/
theorem C4_status_eval :
    get_job_status ((cancel_job 5 (some pendingJob)).2) = .serverError ∧
    statusReplyCode (get_job_status ((cancel_job 5 (some pendingJob)).2)) ≠ 200 ∧
    get_job_status none = .problem "Job not found" 404 "Job not found" := by
  refine ⟨by decide, by decide, rfl⟩

/-! ### C2 — streamed upload size enforcement (modelled from the spec) -/

theorem captureLoop_overflow (maxSize : Nat) :
    ∀ n stream written, stream.length ≤ n → written.length ≤ maxSize →
      maxSize < written.length + stream.length →
      captureLoop maxSize written stream = (none, .fileTooLarge) := by
  intro n
  induction n with
  | zero =>
    intro stream written hlen hw hover
    have hnil : stream = [] := List.length_eq_zero.mp (Nat.le_zero.mp hlen)
    subst hnil
    simp at hover
    omega
  | succ n ih =>
    intro stream written hlen hw hover
    cases stream with
    | nil => simp at hover; omega
    | cons a l =>
      have hcl : ((a :: l).take uploadChunkSize).length =
          min uploadChunkSize (a :: l).length := List.length_take _ _
      by_cases hb : written.length + ((a :: l).take uploadChunkSize).length > maxSize
      · simp only [captureLoop]
        rw [if_pos hb]
      · simp only [captureLoop]
        rw [if_neg hb]
        have hpos : 0 < uploadChunkSize := by decide
        have hdl : ((a :: l).drop uploadChunkSize).length =
            (a :: l).length - uploadChunkSize := List.length_drop _ _
        have h1 : ((a :: l).drop uploadChunkSize).length ≤ n := by
          rw [hdl]
          simp only [List.length_cons] at hlen ⊢
          omega
        have h2 : (written ++ (a :: l).take uploadChunkSize).length ≤ maxSize := by
          rw [List.length_append, hcl]
          omega
        have h3 : maxSize <
            (written ++ (a :: l).take uploadChunkSize).length +
              ((a :: l).drop uploadChunkSize).length := by
          rw [List.length_append, hcl, hdl]
          simp only [List.length_cons] at hover ⊢
          omega
        exact ih _ _ h1 h2 h3

/-- C2 (modelled from the spec, the implementing method being absent from
the source tree): whenever the stream is longer than `MAX_UPLOAD_SIZE`,
the running byte count exceeds the limit at some chunk boundary, the copy
is aborted there, the partial file is deleted (nothing is left on disk)
and the outcome is `FileTooLarge`, which the upload handler answers with
HTTP 413. -/
theorem C2_oversized_upload_rejected (maxSize : Nat) (stream : List Nat)
    (h : maxSize < stream.length) :
    save_upload_streaming maxSize stream = (none, .fileTooLarge) ∧
    uploadCaptureHttpStatus .fileTooLarge = 413 := by
  refine ⟨?_, rfl⟩
  exact captureLoop_overflow maxSize stream.length stream [] le_rfl (Nat.zero_le _)
    (by simpa using h)

theorem C2_witness :
    (2 : Nat) < [71, 49, 50].length ∧
    (save_upload_streaming 2 [71, 49, 50] = (none, .fileTooLarge) ∧
      uploadCaptureHttpStatus .fileTooLarge = 413) :=
  ⟨by decide, C2_oversized_upload_rejected 2 [71, 49, 50] (by decide)⟩

/-! ### C8 — G-code sniffing -/

/-- C8 fails on the code in two ways at once: the source decodes with
`errors="ignore"` (the claim says replacement) and its coordinate regexes
`X[0-9.-]+` accept a bare dash after the letter (the claim says a signed
decimal).  On the chunk `X- Y- ;` the code finds three matching patterns
and accepts, while the claimed condition counts only one and demands
rejection. -/
theorem C8_counterexample :
    validate_gcode_content (asciiBytes "X- Y- ;".data) = true ∧
    claimSniffAccepts (asciiBytes "X- Y- ;".data) = false := by
  constructor <;> decide

/-- C8 (amended): the head chunk is decoded as UTF-8 with undecodable
sequences ignored, and sniffing accepts exactly when at least 3 distinct
patterns of the set `G<digits>`, `M<digits>`, `X[0-9.-]+`, `Y[0-9.-]+`,
`Z[0-9.-]+`, `;` match somewhere in the decoded chunk (the coordinate
patterns accept any of digit, dot or dash after the letter, not only
signed decimals); with fewer than 3 it fails with the not-G-code error. -/
theorem gcode_countP_eq_hits (s : List Char) :
    gcodePatterns.countP (fun p => p s) = gcodePatternHits s := by
  simp only [gcodePatterns, gcodePatternHits, List.countP_cons, List.countP_nil,
    Bool.cond_eq_ite]
  ring

theorem C8_sniff_iff (content : List Nat) :
    validate_gcode_content content = true ↔
      3 ≤ gcodePatternHits (utf8Decode false content) := by
  simp only [validate_gcode_content, decide_eq_true_eq, gcode_countP_eq_hits]

/-! ### C5 — the sanitize pipeline -/

theorem collapse_cons_of_ne (a : Char) (v : List Char) (h : (a == '_') = false) :
    collapse (a :: v) = a :: collapse v := by
  cases v with
  | nil => rfl
  | cons b r => simp [collapse, h]

theorem subChar_underscore (w : Char → Bool) : subChar w '_' = '_' := by
  by_cases h : safeChar w '_' = true
  · simp [subChar, h]
  · simp [subChar, (by simpa using h : safeChar w '_' = false)]

theorem specClass_of_safe {w : Char → Bool} {c : Char} (hs : safeChar w c = true) :
    (w c || c == '.' || c == '_' || c == '-') = true := by
  simp only [safeChar, Bool.or_eq_true] at hs
  simp only [Bool.or_eq_true]
  tauto

theorem specClass_false {w : Char → Bool} {c : Char} (hs : safeChar w c = false)
    (hu : (c == '_') = false) :
    (w c || c == '.' || c == '_' || c == '-') = false := by
  cases hw : w c <;> cases hd : (c == '.') <;> cases hh : (c == '-') <;>
    simp_all [safeChar]

theorem specScan_safe_notU (w : Char → Bool) (b : Bool) (c : Char) (r : List Char)
    (hs : safeChar w c = true) (hu : (c == '_') = false) :
    specScan w b (c :: r) = c :: specScan w false r := by
  simp only [specScan]
  rw [specClass_of_safe hs, hu]
  simp

theorem specScan_underscore (w : Char → Bool) (b : Bool) (r : List Char) :
    specScan w b ('_' :: r) =
      if b then specScan w true r else '_' :: specScan w true r := by
  cases b <;> simp [specScan]

theorem specScan_replacedChar (w : Char → Bool) (b : Bool) (c : Char) (r : List Char)
    (hs : safeChar w c = false) (hu : (c == '_') = false) :
    specScan w b (c :: r) =
      if b then specScan w true r else '_' :: specScan w true r := by
  simp only [specScan]
  rw [specClass_false hs hu]
  cases b <;> simp

theorem specScan_eq_collapse_sub (w : Char → Bool) (l : List Char) :
    specScan w false l = collapse (subStem w l) ∧
    '_' :: specScan w true l = collapse ('_' :: subStem w l) := by
  induction l with
  | nil => exact ⟨rfl, rfl⟩
  | cons c r ih =>
    obtain ⟨ihF, ihT⟩ := ih
    have hsub : subStem w (c :: r) = subChar w c :: subStem w r := rfl
    by_cases hu : (c == '_') = true
    · have hc : c = '_' := by simpa using hu
      subst hc
      constructor
      · rw [specScan_underscore w false r, if_neg (by simp), hsub, subChar_underscore]
        exact ihT
      · rw [specScan_underscore w true r, if_pos rfl, hsub, subChar_underscore]
        have hcc : collapse ('_' :: '_' :: subStem w r) =
            collapse ('_' :: subStem w r) := by
          simp [collapse]
        rw [hcc]
        exact ihT
    · have hne : (c == '_') = false := by simpa using hu
      by_cases hs : safeChar w c = true
      · have hsc : subChar w c = c := by simp [subChar, hs]
        constructor
        · rw [specScan_safe_notU w false c r hs hne, hsub, hsc,
            collapse_cons_of_ne c _ hne, ihF]
        · rw [specScan_safe_notU w true c r hs hne, hsub, hsc]
          have h1 : collapse ('_' :: c :: subStem w r) =
              '_' :: collapse (c :: subStem w r) := by
            simp [collapse, hne]
          rw [h1, collapse_cons_of_ne c _ hne, ihF]
      · have hs2 : safeChar w c = false := by simpa using hs
        have hsc : subChar w c = '_' := by simp [subChar, hs2]
        constructor
        · rw [specScan_replacedChar w false c r hs2 hne, if_neg (by simp), hsub, hsc]
          exact ihT
        · rw [specScan_replacedChar w true c r hs2 hne, if_pos rfl, hsub, hsc]
          have hcc : collapse ('_' :: '_' :: subStem w r) =
              collapse ('_' :: subStem w r) := by
            simp [collapse]
          rw [hcc]
          exact ihT

theorem dropTrailingU_eq_reverse (l : List Char) :
    dropTrailingU l = ((l.reverse.dropWhile (fun c => c == '_'))).reverse := by
  induction l with
  | nil => rfl
  | cons a r ih =>
    rw [show (a :: r).reverse = r.reverse ++ [a] from by simp]
    rw [List.dropWhile_append]
    cases hr : dropTrailingU r with
    | nil =>
      have hrev : r.reverse.dropWhile (fun c => c == '_') = [] := by
        have h0 : ((r.reverse.dropWhile (fun c => c == '_'))).reverse = [] := by
          rw [← ih, hr]
        simpa using h0
      rw [hrev]
      simp only [List.isEmpty_nil, if_pos]
      by_cases ha : (a == '_') = true
      · simp [dropTrailingU, hr, ha, List.dropWhile]
      · have ha2 : (a == '_') = false := by simpa using ha
        simp [dropTrailingU, hr, ha2, List.dropWhile]
    | cons b r2 =>
      have hne : r.reverse.dropWhile (fun c => c == '_') ≠ [] := by
        intro hczero
        rw [hczero] at ih
        simp [hr] at ih
      rw [if_neg (by simpa using hne)]
      simp only [dropTrailingU, hr]
      rw [List.reverse_append]
      simp only [List.reverse_cons, List.reverse_nil, List.nil_append, List.singleton_append]
      rw [← ih, hr]

theorem stripU_eq_specTrim (l : List Char) : stripU l = specTrim l := by
  rw [stripU, specTrim, dropTrailingU_eq_reverse]

/-- C5 fails on the code in its final step: the extension is re-attached
exactly as found, not lowercased.  On the pure-ASCII input `part.GCO`
(where `asciiWord` agrees with CPython's `\w`) the source returns
`part.GCO` while the claimed pipeline returns `part.gco`.  (The claimed
stem class `[A-Za-z0-9._-]` is also narrower than the code's Unicode-aware
`[\w.-]`; the amended sentence uses the code's class.) -/
theorem C5_counterexample :
    sanitize_filename asciiWord "part.GCO".data ≠
      sanitizeClaimed asciiWord "part.GCO".data ∧
    sanitize_filename asciiWord "part.GCO".data = "part.GCO".data ∧
    sanitizeClaimed asciiWord "part.GCO".data = "part.gco".data := by
  refine ⟨by decide, by decide, by decide⟩

/-- C5 (amended): `sanitize_filename` strips the extension, replaces every
stem character outside the class `[\w.-]` (Python word characters —
Unicode-aware — dot and dash) with an underscore, collapses underscore
runs, trims leading and trailing underscores, truncates the stem to 100
characters, and re-attaches the original extension unchanged (not
lowercased).  The pipeline is proved equal to an independent one-pass
formalization of that sentence, for every word-character classifier and
hence for the one CPython uses. -/
theorem C5_sanitize_refines_spec (w : Char → Bool) (filename : List Char) :
    sanitize_filename w filename = sanitizeSpecAmended w filename := by
  rw [sanitize_filename, sanitizeSpecAmended, cleanStem,
    (specScan_eq_collapse_sub w (pathSplit (pathNameComponent filename)).1).1,
    stripU_eq_specTrim]

/-! ### C6 — shape of sanitized names for validated inputs -/

theorem not_mem_of_contains_false {a : Char} {l : List Char}
    (h : l.contains a = false) : a ∉ l := by
  intro hm
  simp [List.elem_iff] at h
  exact h hm

theorem mem_dropWhile_sub {p : Char → Bool} {l : List Char} {c : Char}
    (h : c ∈ l.dropWhile p) : c ∈ l := by
  have hsplit := List.takeWhile_append_dropWhile p l
  rw [← hsplit]
  exact List.mem_append_right _ h

theorem mem_takeWhile_sub {p : Char → Bool} {l : List Char} {c : Char}
    (h : c ∈ l.takeWhile p) : c ∈ l := by
  have hsplit := List.takeWhile_append_dropWhile p l
  rw [← hsplit]
  exact List.mem_append_left _ h

theorem mem_subStem_safe {w : Char → Bool} (hw : w '_' = true) {c : Char}
    {l : List Char} (h : c ∈ subStem w l) : safeChar w c = true := by
  rw [subStem, List.mem_map] at h
  obtain ⟨a, _, ha⟩ := h
  subst ha
  by_cases hs : safeChar w a = true
  · simp only [subChar, hs, if_pos]
  · have hs2 : safeChar w a = false := by simpa using hs
    simp only [subChar, hs2, Bool.false_eq_true, if_neg, ite_false]
    simp [safeChar, hw]

theorem mem_collapse_sub {c : Char} : ∀ {l : List Char}, c ∈ collapse l → c ∈ l := by
  intro l
  induction l with
  | nil => intro h; simp [collapse] at h
  | cons a r ih =>
    intro h
    cases r with
    | nil => simp only [collapse] at h; exact h
    | cons b r2 =>
      by_cases hab : (a == '_' && b == '_') = true
      · rw [show collapse (a :: b :: r2) = collapse (b :: r2) from by simp [collapse, hab]] at h
        exact List.mem_cons_of_mem a (ih h)
      · have hab2 : (a == '_' && b == '_') = false := by simpa using hab
        rw [show collapse (a :: b :: r2) = a :: collapse (b :: r2) from by
          simp [collapse, hab2]] at h
        rcases List.mem_cons.mp h with h | h
        · exact h ▸ List.mem_cons_self a _
        · exact List.mem_cons_of_mem a (ih h)

theorem mem_stripU_sub {c : Char} {l : List Char} (h : c ∈ stripU l) : c ∈ l := by
  rw [stripU] at h
  rw [List.mem_reverse] at h
  have h1 := mem_dropWhile_sub h
  rw [List.mem_reverse] at h1
  exact mem_dropWhile_sub h1

theorem mem_truncateStem_sub {c : Char} {l : List Char} (h : c ∈ truncateStem l) :
    c ∈ l := by
  rw [truncateStem] at h
  by_cases hl : l.length > 100
  · rw [if_pos hl] at h
    exact List.mem_of_mem_take h
  · rwa [if_neg hl] at h

theorem mem_cleanStem_safe {w : Char → Bool} (hw : w '_' = true) {c : Char}
    {l : List Char} (h : c ∈ cleanStem w l) : safeChar w c = true :=
  mem_subStem_safe hw (mem_collapse_sub (mem_stripU_sub (mem_truncateStem_sub h)))

theorem safeChar_not_dangerous {w : Char → Bool} (hws : w '/' = false)
    (hwb : w '\\' = false) (hwn : w (Char.ofNat 0) = false) {c : Char}
    (h : safeChar w c = true) :
    c ≠ '/' ∧ c ≠ '\\' ∧ c ≠ Char.ofNat 0 := by
  refine ⟨?_, ?_, ?_⟩ <;> rintro rfl
  · simp [safeChar, hws] at h
  · simp [safeChar, hwb] at h
  · simp [safeChar, hwn] at h

theorem mem_pathNameComponent_sub {c : Char} {l : List Char}
    (h : c ∈ pathNameComponent l) : c ∈ l := by
  rw [pathNameComponent, List.mem_reverse] at h
  have h1 := mem_takeWhile_sub h
  rwa [List.mem_reverse] at h1

theorem mem_pathSplit_snd_sub {c : Char} {l : List Char}
    (h : c ∈ (pathSplit l).2) : c ∈ l := by
  rw [pathSplit] at h
  split at h
  · split at h
    · exact List.mem_of_mem_drop h
    · simp at h
  · simp at h

/-- C6 fails on the code: sanitization can create a `..` sequence at the
stem–extension boundary even for a validated input.  The pure-ASCII input
`a._.gcode` (`asciiWord`/`asciiSpace` agree with CPython there) passes
`validate_filename` (no `..`, no separators, characters in `[\w\s.-]`)
but sanitizes to `a..gcode`. -/
theorem C6_counterexample :
    validate_filename asciiWord asciiSpace "a._.gcode".data = true ∧
    hasDotDot (sanitize_filename asciiWord "a._.gcode".data) = true ∧
    sanitize_filename asciiWord "a._.gcode".data = "a..gcode".data := by
  refine ⟨by decide, by decide, by decide⟩

/-- C6 (amended): for every input accepted by filename validation, every
character of the sanitized filename lies in the validator's class
`[\w\s.-]`, and the result contains no path separator and no NUL byte
(those are not word characters).  The properties are proved for every
word- and space-character classifier, under the four facts about `\w`
that CPython satisfies: underscore is a word character, slash, backslash
and NUL are not.  (The stronger original shape claim fails: the result
may contain `..` across the stem–extension boundary, may be empty, and
may retain validator-admitted whitespace or non-ASCII word characters, so
it need not match `[A-Za-z0-9 ._-]+`.) -/
theorem C6_sanitized_class_and_no_separators (w s : Char → Bool)
    (hwu : w '_' = true) (hws : w '/' = false) (hwb : w '\\' = false)
    (hwn : w (Char.ofNat 0) = false) (filename : List Char)
    (h : validate_filename w s filename = true) :
    ∀ c ∈ sanitize_filename w filename,
      validChar w s c = true ∧ c ≠ '/' ∧ c ≠ '\\' ∧ c ≠ Char.ofNat 0 := by
  intro c hc
  rw [sanitize_filename] at hc
  simp only [validate_filename, Bool.and_eq_true, Bool.not_eq_true'] at h
  obtain ⟨⟨⟨⟨⟨-, -⟩, hslash⟩, hback⟩, hnul⟩, hall⟩ := h
  rcases List.mem_append.mp hc with hstem | hext
  · have hsafe := mem_cleanStem_safe hwu hstem
    refine ⟨?_, safeChar_not_dangerous hws hwb hwn hsafe⟩
    have hsafe2 : (w c = true ∨ c = '.') ∨ c = '-' := by
      simpa [safeChar] using hsafe
    rcases hsafe2 with (h1 | h1) | h1 <;> simp [validChar, h1]
  · have hmem : c ∈ filename :=
      mem_pathNameComponent_sub (mem_pathSplit_snd_sub hext)
    refine ⟨List.all_eq_true.mp hall c hmem, ?_, ?_, ?_⟩ <;> rintro rfl
    · exact not_mem_of_contains_false hslash hmem
    · exact not_mem_of_contains_false hback hmem
    · exact not_mem_of_contains_false hnul hmem

theorem C6_witness :
    asciiWord '_' = true ∧ asciiWord '/' = false ∧ asciiWord '\\' = false ∧
    asciiWord (Char.ofNat 0) = false ∧
    validate_filename asciiWord asciiSpace "ab.gcode".data = true ∧
    (∀ c ∈ sanitize_filename asciiWord "ab.gcode".data,
      validChar asciiWord asciiSpace c = true ∧
      c ≠ '/' ∧ c ≠ '\\' ∧ c ≠ Char.ofNat 0) :=
  ⟨by decide, by decide, by decide, by decide, by decide,
   C6_sanitized_class_and_no_separators asciiWord asciiSpace (by decide) (by decide)
     (by decide) (by decide) "ab.gcode".data (by decide)⟩

/-! ### C7 — upload-path congruence and (conditional) idempotence

The fixed-point analysis below shows each stage of the cleaning pipeline
is the identity on its own image, provided the 100-character truncation
did not fire; truncation (and a stem cleaned to empty) are exactly what
break idempotence. -/

theorem noDU_cons_tail {a : Char} {l : List Char} (h : noDU (a :: l) = true) :
    noDU l = true := by
  cases l with
  | nil => rfl
  | cons b r =>
    simp only [noDU, Bool.and_eq_true] at h
    exact h.2

theorem noDU_cons_of_ne {a : Char} {l : List Char} (ha : (a == '_') = false)
    (h : noDU l = true) : noDU (a :: l) = true := by
  cases l with
  | nil => rfl
  | cons b r =>
    simp only [noDU, Bool.and_eq_true]
    exact ⟨by simp [ha], h⟩

theorem noDU_append_left {u v : List Char} (h : noDU (u ++ v) = true) :
    noDU u = true := by
  induction u with
  | nil => rfl
  | cons a u2 ih =>
    cases u2 with
    | nil => rfl
    | cons b u3 =>
      simp only [List.cons_append, noDU, Bool.and_eq_true] at h ⊢
      exact ⟨h.1, by simpa using ih (by simpa using h.2)⟩

theorem collapse_ne_nil {l : List Char} (h : l ≠ []) : collapse l ≠ [] := by
  induction l with
  | nil => exact absurd rfl h
  | cons a r ih =>
    cases r with
    | nil => simp [collapse]
    | cons b r2 =>
      by_cases hab : (a == '_' && b == '_') = true
      · rw [show collapse (a :: b :: r2) = collapse (b :: r2) from by simp [collapse, hab]]
        exact ih (by simp)
      · have hab2 : (a == '_' && b == '_') = false := by simpa using hab
        rw [show collapse (a :: b :: r2) = a :: collapse (b :: r2) from by
          simp [collapse, hab2]]
        simp

theorem collapse_getLast? : ∀ l : List Char, (collapse l).getLast? = l.getLast? := by
  intro l
  induction l with
  | nil => rfl
  | cons a r ih =>
    cases r with
    | nil => rfl
    | cons b r2 =>
      by_cases hab : (a == '_' && b == '_') = true
      · rw [show collapse (a :: b :: r2) = collapse (b :: r2) from by simp [collapse, hab],
          ih, List.getLast?_cons_cons]
      · have hab2 : (a == '_' && b == '_') = false := by simpa using hab
        rw [show collapse (a :: b :: r2) = a :: collapse (b :: r2) from by
          simp [collapse, hab2]]
        have hne : collapse (b :: r2) ≠ [] := collapse_ne_nil (by simp)
        rcases hx : collapse (b :: r2) with _ | ⟨c, cs⟩
        · exact absurd hx hne
        · rw [List.getLast?_cons_cons, ← hx, ih, List.getLast?_cons_cons]

theorem collapse_noDU : ∀ l : List Char, noDU (collapse l) = true := by
  intro l
  induction l with
  | nil => rfl
  | cons a r ih =>
    cases r with
    | nil => rfl
    | cons b r2 =>
      by_cases hab : (a == '_' && b == '_') = true
      · rw [show collapse (a :: b :: r2) = collapse (b :: r2) from by simp [collapse, hab]]
        exact ih
      · have hab2 : (a == '_' && b == '_') = false := by simpa using hab
        rw [show collapse (a :: b :: r2) = a :: collapse (b :: r2) from by
          simp [collapse, hab2]]
        by_cases ha : (a == '_') = true
        · have hb : (b == '_') = false := by
            rcases Bool.and_eq_false_iff.mp hab2 with h | h
            · exact absurd ha (by simp [h])
            · exact h
          rw [collapse_cons_of_ne b r2 hb]
          rw [collapse_cons_of_ne b r2 hb] at ih
          cases hcb : collapse r2 with
          | nil => simp [noDU, hb]
          | cons c cs =>
            rw [hcb] at ih
            simp only [noDU, Bool.and_eq_true] at ih ⊢
            exact ⟨by simp [hb], ih⟩
        · exact noDU_cons_of_ne (by simpa using ha) ih

theorem collapse_of_noDU : ∀ {l : List Char}, noDU l = true → collapse l = l := by
  intro l
  induction l with
  | nil => intro h; rfl
  | cons a r ih =>
    intro h
    cases r with
    | nil => rfl
    | cons b r2 =>
      simp only [noDU, Bool.and_eq_true, Bool.not_eq_true'] at h
      have hab : (a == '_' && b == '_') = false := h.1
      rw [show collapse (a :: b :: r2) = a :: collapse (b :: r2) from by
        simp [collapse, hab]]
      rw [ih h.2]

theorem noDU_dropWhile {p : Char → Bool} : ∀ {l : List Char}, noDU l = true →
    noDU (l.dropWhile p) = true := by
  intro l
  induction l with
  | nil => intro h; exact h
  | cons a r ih =>
    intro h
    by_cases ha : p a = true
    · rw [List.dropWhile_cons_of_pos ha]
      exact ih (noDU_cons_tail h)
    · rw [List.dropWhile_cons_of_neg (by simpa using ha)]
      exact h

theorem dropTrailingU_decomp : ∀ l : List Char, ∃ v, l = dropTrailingU l ++ v := by
  intro l
  induction l with
  | nil => exact ⟨[], rfl⟩
  | cons a r ih =>
    obtain ⟨v, hv⟩ := ih
    cases hr : dropTrailingU r with
    | nil =>
      by_cases ha : (a == '_') = true
      · refine ⟨a :: r, ?_⟩
        simp [dropTrailingU, hr, ha]
      · have ha2 : (a == '_') = false := by simpa using ha
        refine ⟨r, ?_⟩
        simp [dropTrailingU, hr, ha2]
    | cons b r2 =>
      refine ⟨v, ?_⟩
      rw [hr] at hv
      simp only [dropTrailingU, hr]
      rw [List.cons_append, ← hv]

theorem noDU_dropTrailingU {l : List Char} (h : noDU l = true) :
    noDU (dropTrailingU l) = true := by
  obtain ⟨v, hv⟩ := dropTrailingU_decomp l
  rw [hv] at h
  exact noDU_append_left h

theorem getLast?_dropTrailingU_ne {l : List Char} {a : Char}
    (h : (dropTrailingU l).getLast? = some a) : (a == '_') = false := by
  rw [dropTrailingU_eq_reverse, List.getLast?_reverse] at h
  cases hd : (l.reverse.dropWhile (fun c => c == '_')) with
  | nil => rw [hd] at h; simp at h
  | cons x xs =>
    rw [hd] at h
    simp only [List.head?_cons, Option.some.injEq] at h
    subst h
    have h2 := List.head?_dropWhile_not (fun c => c == '_') l.reverse
    rw [hd] at h2
    exact h2

theorem dropTrailingU_of_getLast_ne {l : List Char} {a : Char}
    (h : l.getLast? = some a) (ha : (a == '_') = false) : dropTrailingU l = l := by
  rw [dropTrailingU_eq_reverse]
  cases hrev : l.reverse with
  | nil =>
    have : l = [] := by simpa using congrArg List.reverse hrev
    subst this
    rfl
  | cons x xs =>
    have hh : l.reverse.head? = some a := by rw [List.head?_reverse, h]
    rw [hrev] at hh
    simp only [List.head?_cons, Option.some.injEq] at hh
    subst hh
    rw [List.dropWhile_cons_of_neg (by simp [ha]), ← hrev, List.reverse_reverse]

theorem stripU_noDU {l : List Char} (h : noDU l = true) : noDU (stripU l) = true := by
  rw [stripU_eq_specTrim, specTrim]
  exact noDU_dropTrailingU (noDU_dropWhile h)

theorem stripU_head_ne {l : List Char} {x : Char} {xs : List Char}
    (h : stripU l = x :: xs) : (x == '_') = false := by
  rw [stripU_eq_specTrim, specTrim] at h
  obtain ⟨v, hv⟩ := dropTrailingU_decomp (l.dropWhile (fun c => c == '_'))
  rw [h] at hv
  have h2 := List.head?_dropWhile_not (fun c => c == '_') l
  rw [hv] at h2
  simpa using h2

theorem stripU_getLast_ne {l : List Char} {a : Char}
    (h : (stripU l).getLast? = some a) : (a == '_') = false := by
  rw [stripU_eq_specTrim, specTrim] at h
  exact getLast?_dropTrailingU_ne h

theorem stripU_fixed {t : List Char}
    (hh : ∀ x xs, t = x :: xs → (x == '_') = false)
    (hl : ∀ a, t.getLast? = some a → (a == '_') = false) : stripU t = t := by
  rw [stripU_eq_specTrim, specTrim]
  cases t with
  | nil => rfl
  | cons x xs =>
    rw [List.dropWhile_cons_of_neg (by simp [hh x xs rfl])]
    cases hg : (x :: xs).getLast? with
    | none => simp at hg
    | some a => exact dropTrailingU_of_getLast_ne hg (hl a hg)

theorem subStem_id {w : Char → Bool} {l : List Char}
    (h : ∀ c ∈ l, safeChar w c = true) : subStem w l = l := by
  induction l with
  | nil => rfl
  | cons a r ih =>
    rw [show subStem w (a :: r) = subChar w a :: subStem w r from rfl]
    rw [show subChar w a = a from by simp [subChar, h a (List.mem_cons_self a r)]]
    rw [ih (fun c hc => h c (List.mem_cons_of_mem a hc))]

theorem truncateStem_of_le {l : List Char} (h : l.length ≤ 100) :
    truncateStem l = l := by
  rw [truncateStem, if_neg (by omega)]

theorem mem_subStem_orig {w : Char → Bool} {c : Char} {l : List Char}
    (h : c ∈ subStem w l) (hc : (c == '_') = false) : c ∈ l := by
  rw [subStem, List.mem_map] at h
  obtain ⟨a, ha, hac⟩ := h
  by_cases hs : safeChar w a = true
  · rw [show subChar w a = a from by simp [subChar, hs]] at hac
    exact hac ▸ ha
  · rw [show subChar w a = '_' from by
      simp [subChar, (by simpa using hs : safeChar w a = false)]] at hac
    subst hac
    simp at hc

theorem cleanStem_facts {w : Char → Bool} (hwu : w '_' = true) (st : List Char) :
    (∀ c ∈ stripU (collapse (subStem w st)), safeChar w c = true) ∧
    cleanStem w (stripU (collapse (subStem w st))) =
      stripU (collapse (subStem w st)) ∨
    100 < (stripU (collapse (subStem w st))).length := by
  by_cases hlen : (stripU (collapse (subStem w st))).length ≤ 100
  · left
    constructor
    · intro c hc
      exact mem_subStem_safe hwu (mem_collapse_sub (mem_stripU_sub hc))
    · have hsafe : ∀ c ∈ stripU (collapse (subStem w st)), safeChar w c = true :=
        fun c hc => mem_subStem_safe hwu (mem_collapse_sub (mem_stripU_sub hc))
      rw [cleanStem, subStem_id hsafe,
        collapse_of_noDU (stripU_noDU (collapse_noDU (subStem w st))),
        stripU_fixed (fun x xs hx => stripU_head_ne hx)
          (fun a ha => stripU_getLast_ne ha),
        truncateStem_of_le hlen]
  · right
    omega

theorem ldi_lt_length : ∀ {l : List Char} {i : Nat}, lastDotIdx l = some i →
    i < l.length := by
  intro l
  induction l with
  | nil => intro i h; simp [lastDotIdx] at h
  | cons c rest ih =>
    intro i h
    cases hr : lastDotIdx rest with
    | some j =>
      rw [show lastDotIdx (c :: rest) = some (j + 1) from by
        simp [lastDotIdx, hr]] at h
      obtain rfl : j + 1 = i := by simpa using h
      have := ih hr
      simp only [List.length_cons]
      omega
    | none =>
      by_cases hc : (c == '.') = true
      · rw [show lastDotIdx (c :: rest) = some 0 from by simp [lastDotIdx, hr, hc]] at h
        obtain rfl : (0 : Nat) = i := by simpa using h
        simp
      · rw [show lastDotIdx (c :: rest) = none from by
          simp [lastDotIdx, hr, (by simpa using hc : (c == '.') = false)]] at h
        simp at h

theorem ldi_append_some {v : List Char} {j : Nat} (hv : lastDotIdx v = some j) :
    ∀ u : List Char, lastDotIdx (u ++ v) = some (u.length + j) := by
  intro u
  induction u with
  | nil => simpa using hv
  | cons c u2 ih =>
    rw [List.cons_append]
    rw [show lastDotIdx (c :: (u2 ++ v)) = some (u2.length + j + 1) from by
      simp [lastDotIdx, ih]]
    simp only [List.length_cons]
    rw [Nat.add_right_comm]

theorem ldi_append_none {v : List Char} (hv : lastDotIdx v = none) :
    ∀ u : List Char, lastDotIdx (u ++ v) = lastDotIdx u := by
  intro u
  induction u with
  | nil => simpa using hv
  | cons c u2 ih =>
    rw [List.cons_append]
    simp only [lastDotIdx]
    rw [ih]

theorem ldi_none_iff : ∀ {l : List Char}, lastDotIdx l = none ↔ '.' ∉ l := by
  intro l
  induction l with
  | nil => simp [lastDotIdx]
  | cons c rest ih =>
    cases hr : lastDotIdx rest with
    | some j =>
      rw [show lastDotIdx (c :: rest) = some (j + 1) from by simp [lastDotIdx, hr]]
      have : '.' ∈ rest := by
        by_contra hmem
        rw [← ih] at hmem
        rw [hmem] at hr
        exact Option.noConfusion hr
      simp [this]
    | none =>
      by_cases hc : (c == '.') = true
      · rw [show lastDotIdx (c :: rest) = some 0 from by simp [lastDotIdx, hr, hc]]
        have : c = '.' := by simpa using hc
        simp [this]
      · have hc2 : (c == '.') = false := by simpa using hc
        rw [show lastDotIdx (c :: rest) = none from by simp [lastDotIdx, hr, hc2]]
        have h1 : '.' ∉ rest := ih.mp hr
        have h2 : ¬c = '.' := by simpa using hc2
        constructor
        · intro _
          simp only [List.mem_cons]
          rintro (hh | hh)
          · exact h2 hh.symm
          · exact h1 hh
        · intro _
          rfl

theorem ldi_drop : ∀ {l : List Char} {i : Nat}, lastDotIdx l = some i →
    ∃ e, l.drop i = '.' :: e ∧ lastDotIdx e = none := by
  intro l
  induction l with
  | nil => intro i h; simp [lastDotIdx] at h
  | cons c rest ih =>
    intro i h
    cases hr : lastDotIdx rest with
    | some j =>
      rw [show lastDotIdx (c :: rest) = some (j + 1) from by simp [lastDotIdx, hr]] at h
      obtain rfl : j + 1 = i := by simpa using h
      obtain ⟨e, he, hen⟩ := ih hr
      exact ⟨e, by simpa using he, hen⟩
    | none =>
      by_cases hc : (c == '.') = true
      · rw [show lastDotIdx (c :: rest) = some 0 from by simp [lastDotIdx, hr, hc]] at h
        obtain rfl : (0 : Nat) = i := by simpa using h
        have : c = '.' := by simpa using hc
        subst this
        exact ⟨rest, rfl, hr⟩
      · rw [show lastDotIdx (c :: rest) = none from by
          simp [lastDotIdx, hr, (by simpa using hc : (c == '.') = false)]] at h
        simp at h

theorem ldi_cons_zero {c : Char} {r : List Char}
    (h : lastDotIdx (c :: r) = some 0) : c = '.' ∧ lastDotIdx r = none := by
  cases hr : lastDotIdx r with
  | some j =>
    rw [show lastDotIdx (c :: r) = some (j + 1) from by simp [lastDotIdx, hr]] at h
    simp at h
  | none =>
    by_cases hc : (c == '.') = true
    · exact ⟨by simpa using hc, rfl⟩
    · rw [show lastDotIdx (c :: r) = none from by
        simp [lastDotIdx, hr, (by simpa using hc : (c == '.') = false)]] at h
      simp at h

theorem getLast_dot_ldi : ∀ {l : List Char}, l.getLast? = some '.' →
    lastDotIdx l = some (l.length - 1) := by
  intro l
  induction l with
  | nil => intro h; simp at h
  | cons c rest ih =>
    intro h
    cases rest with
    | nil =>
      simp only [List.getLast?_singleton, Option.some.injEq] at h
      subst h
      simp [lastDotIdx]
    | cons b r2 =>
      rw [List.getLast?_cons_cons] at h
      have hr := ih h
      have hstep : lastDotIdx (c :: b :: r2) =
          match lastDotIdx (b :: r2) with
          | some j => some (j + 1)
          | none => if c == '.' then some 0 else none := rfl
      rw [hstep, hr]
      show some ((b :: r2).length - 1 + 1) = some ((c :: b :: r2).length - 1)
      simp only [List.length_cons]
      congr 1

theorem ldi_some_last {l : List Char} {i : Nat} (h : lastDotIdx l = some i)
    (hlen : i + 1 = l.length) : l.getLast? = some '.' := by
  obtain ⟨e, he, -⟩ := ldi_drop h
  have hulen : (l.drop i).length = 1 := by
    rw [List.length_drop]
    omega
  rw [he] at hulen
  simp only [List.length_cons] at hulen
  have : e = [] := List.length_eq_zero.mp (by omega)
  subst this
  have hsplit := List.take_append_drop i l
  rw [he] at hsplit
  rw [← hsplit]
  exact List.getLast?_concat _

theorem pathName_no_slash {l : List Char} : '/' ∉ pathNameComponent l := by
  intro h
  rw [pathNameComponent, List.mem_reverse] at h
  have := List.mem_takeWhile_imp h
  simp at this

theorem pathName_id_of_no_slash {l : List Char} (h : '/' ∉ l) :
    pathNameComponent l = l := by
  rw [pathNameComponent]
  rw [List.takeWhile_eq_self_iff.mpr ?_]
  · exact List.reverse_reverse l
  · intro c hc
    rw [List.mem_reverse] at hc
    have : c ≠ '/' := fun hceq => h (hceq ▸ hc)
    simp [this]

theorem pathSplit_append_ext {t e : List Char} (ht : t ≠ []) (he : e ≠ [])
    (hen : lastDotIdx e = none) :
    pathSplit (t ++ '.' :: e) = (t, '.' :: e) := by
  have h0 : lastDotIdx ('.' :: e) = some 0 := by simp [lastDotIdx, hen]
  have h1 : lastDotIdx (t ++ '.' :: e) = some t.length := by
    have := ldi_append_some h0 t
    simpa using this
  have hvalid : 0 < t.length ∧ t.length + 1 < (t ++ '.' :: e).length := by
    constructor
    · cases t with
      | nil => exact absurd rfl ht
      | cons x xs => simp
    · rw [List.length_append, List.length_cons]
      cases e with
      | nil => exact absurd rfl he
      | cons y ys => simp only [List.length_cons]; omega
  rw [pathSplit, h1]
  show (if 0 < t.length ∧ t.length + 1 < (t ++ '.' :: e).length then
      ((t ++ '.' :: e).take t.length, (t ++ '.' :: e).drop t.length)
    else (t ++ '.' :: e, [])) = (t, '.' :: e)
  rw [if_pos hvalid, List.take_left, List.drop_left]

theorem getLast?_dropWhile {p : Char → Bool} : ∀ {l : List Char} {a : Char},
    l.getLast? = some a → p a = false → (l.dropWhile p).getLast? = some a := by
  intro l
  induction l with
  | nil => intro a h _; simp at h
  | cons c r ih =>
    intro a h hp
    cases r with
    | nil =>
      simp only [List.getLast?_singleton, Option.some.injEq] at h
      subst h
      rw [List.dropWhile_cons_of_neg (by simp [hp])]
      rfl
    | cons d r2 =>
      rw [List.getLast?_cons_cons] at h
      by_cases hc : p c = true
      · rw [List.dropWhile_cons_of_pos hc]
        exact ih h hp
      · rw [List.dropWhile_cons_of_neg (by simpa using hc)]
        rw [List.getLast?_cons_cons]
        exact h

theorem pathSplit_invalid {u : List Char}
    (h : lastDotIdx u = none ∨
      ∃ i, lastDotIdx u = some i ∧ ¬(0 < i ∧ i + 1 < u.length)) :
    pathSplit u = (u, []) := by
  rcases h with hn | ⟨i, hi, hv⟩
  · rw [pathSplit, hn]
  · rw [pathSplit, hi]
    show (if 0 < i ∧ i + 1 < u.length then (u.take i, u.drop i) else (u, [])) = (u, [])
    rw [if_neg hv]

theorem pathSplit_cleanStem_self {w : Char → Bool} (st : List Char)
    (hQ : lastDotIdx st = none ∨
      ∃ i, lastDotIdx st = some i ∧ (i = 0 ∨ i + 1 = st.length)) :
    pathSplit (stripU (collapse (subStem w st))) =
      (stripU (collapse (subStem w st)), []) := by
  rcases hQ with hnone | ⟨i, hi, hz | hlast⟩
  · -- st has no dot, hence neither has the cleaned stem
    have hst : '.' ∉ st := ldi_none_iff.mp hnone
    have hnt : '.' ∉ stripU (collapse (subStem w st)) := fun hmem =>
      hst (mem_subStem_orig (mem_collapse_sub (mem_stripU_sub hmem)) (by decide))
    exact pathSplit_invalid (Or.inl (ldi_none_iff.mpr hnt))
  · -- the last dot of st is its first character
    subst hz
    cases st with
    | nil => simp [lastDotIdx] at hi
    | cons c r =>
      obtain ⟨hc, hrnone⟩ := ldi_cons_zero hi
      subst hc
      have hrd : '.' ∉ r := ldi_none_iff.mp hrnone
      have hsub : subStem w ('.' :: r) = '.' :: subStem w r := by
        rw [show subStem w ('.' :: r) = subChar w '.' :: subStem w r from rfl,
          show subChar w '.' = '.' from by simp [subChar, safeChar]]
      have hdd : '.' ∉ subStem w r := fun hmem =>
        hrd (mem_subStem_orig hmem (by decide))
      have hcol : collapse ('.' :: subStem w r) = '.' :: collapse (subStem w r) :=
        collapse_cons_of_ne '.' _ (by decide)
      have hdd2 : '.' ∉ collapse (subStem w r) := fun hm => hdd (mem_collapse_sub hm)
      have hstrip : stripU (collapse (subStem w ('.' :: r))) =
          dropTrailingU ('.' :: collapse (subStem w r)) := by
        rw [hsub, hcol, stripU_eq_specTrim, specTrim,
          List.dropWhile_cons_of_neg (by decide)]
      rw [hstrip]
      cases hdt : dropTrailingU ('.' :: collapse (subStem w r)) with
      | nil => exact pathSplit_invalid (Or.inl rfl)
      | cons x xs =>
        obtain ⟨v, hv⟩ := dropTrailingU_decomp ('.' :: collapse (subStem w r))
        rw [hdt] at hv
        have hx : x = '.' := by
          have := congrArg List.head? hv
          simpa using this.symm
        subst hx
        have hxs : '.' ∉ xs := by
          intro hmem
          have : '.' ∈ collapse (subStem w r) := by
            have := congrArg List.tail hv
            simp only [List.tail_cons, List.cons_append] at this
            rw [this]
            exact List.mem_append_left v hmem
          exact hdd2 this
        refine pathSplit_invalid (Or.inr ⟨0, ?_, by omega⟩)
        simp [lastDotIdx, ldi_none_iff.mpr hxs]
  · -- the last dot of st is its final character
    have hg : st.getLast? = some '.' := ldi_some_last hi hlast
    have hg1 : (subStem w st).getLast? = some '.' := by
      rw [subStem, List.getLast?_map, hg]
      rw [show Option.map (subChar w) (some '.') = some (subChar w '.') from rfl,
        show subChar w '.' = '.' from by simp [subChar, safeChar]]
    have hg2 : (collapse (subStem w st)).getLast? = some '.' := by
      rw [collapse_getLast?]
      exact hg1
    have hg3 : ((collapse (subStem w st)).dropWhile (fun c => c == '_')).getLast? =
        some '.' := getLast?_dropWhile hg2 (by decide)
    have ht : stripU (collapse (subStem w st)) =
        (collapse (subStem w st)).dropWhile (fun c => c == '_') := by
      rw [stripU_eq_specTrim, specTrim]
      exact dropTrailingU_of_getLast_ne hg3 (by decide)
    rw [ht]
    have hne : (collapse (subStem w st)).dropWhile (fun c => c == '_') ≠ [] := by
      intro h0
      rw [h0] at hg3
      simp at hg3
    have hldi := getLast_dot_ldi hg3
    refine pathSplit_invalid (Or.inr ⟨_, hldi, ?_⟩)
    have hlen :
        0 < ((collapse (subStem w st)).dropWhile (fun c => c == '_')).length := by
      cases hx : (collapse (subStem w st)).dropWhile (fun c => c == '_') with
      | nil => exact absurd hx hne
      | cons y ys => simp
    omega

theorem cleanStem_stripped_fixed {w : Char → Bool} (hwu : w '_' = true)
    (st : List Char)
    (hlen : (stripU (collapse (subStem w st))).length ≤ 100) :
    cleanStem w (stripU (collapse (subStem w st))) =
      stripU (collapse (subStem w st)) := by
  rcases cleanStem_facts hwu st with ⟨-, hfix⟩ | hbig
  · exact hfix
  · omega

theorem no_slash_stripped {w : Char → Bool} (hwu : w '_' = true)
    (hws : w '/' = false) (st : List Char) :
    '/' ∉ stripU (collapse (subStem w st)) := by
  intro h
  have := mem_subStem_safe hwu (mem_collapse_sub (mem_stripU_sub h))
  simp [safeChar, hws] at this

theorem sanitize_of_clean_self {w : Char → Bool} (hwu : w '_' = true)
    (hws : w '/' = false) (st : List Char)
    (hQ : lastDotIdx st = none ∨
      ∃ i, lastDotIdx st = some i ∧ (i = 0 ∨ i + 1 = st.length))
    (hlen : (stripU (collapse (subStem w st))).length ≤ 100) :
    sanitize_filename w (stripU (collapse (subStem w st))) =
      stripU (collapse (subStem w st)) := by
  show cleanStem w
      (pathSplit (pathNameComponent (stripU (collapse (subStem w st))))).1 ++
      (pathSplit (pathNameComponent (stripU (collapse (subStem w st))))).2 =
    stripU (collapse (subStem w st))
  rw [pathName_id_of_no_slash (no_slash_stripped hwu hws st),
    pathSplit_cleanStem_self st hQ]
  show cleanStem w (stripU (collapse (subStem w st))) ++ [] =
    stripU (collapse (subStem w st))
  rw [List.append_nil, cleanStem_stripped_fixed hwu st hlen]

theorem sanitize_idem_aux {w : Char → Bool} (hwu : w '_' = true)
    (hws : w '/' = false) (n : List Char) (hns : '/' ∉ n)
    (hne : stripU (collapse (subStem w (pathSplit n).1)) ≠ [])
    (hlen : (stripU (collapse (subStem w (pathSplit n).1))).length ≤ 100) :
    sanitize_filename w (cleanStem w (pathSplit n).1 ++ (pathSplit n).2) =
      cleanStem w (pathSplit n).1 ++ (pathSplit n).2 := by
  rcases hldi : lastDotIdx n with _ | i
  · -- no dot at all: the suffix is empty
    have hps : pathSplit n = (n, []) := pathSplit_invalid (Or.inl hldi)
    rw [hps] at hne hlen ⊢
    show sanitize_filename w (cleanStem w n ++ []) = cleanStem w n ++ []
    rw [List.append_nil, cleanStem, truncateStem_of_le hlen]
    exact sanitize_of_clean_self hwu hws n (Or.inl hldi) hlen
  · by_cases hv : 0 < i ∧ i + 1 < n.length
    · -- a real extension exists
      have hps : pathSplit n = (n.take i, n.drop i) := by
        rw [pathSplit, hldi]
        show (if 0 < i ∧ i + 1 < n.length then (n.take i, n.drop i) else (n, [])) =
          (n.take i, n.drop i)
        rw [if_pos hv]
      obtain ⟨e, he, hen⟩ := ldi_drop hldi
      have helen : 1 + e.length = n.length - i := by
        have := congrArg List.length he
        simp only [List.length_drop, List.length_cons] at this
        omega
      have hee : e ≠ [] := by
        intro h0
        subst h0
        simp only [List.length_nil] at helen
        omega
      rw [hps] at hne hlen ⊢
      show sanitize_filename w (cleanStem w (n.take i) ++ n.drop i) =
        cleanStem w (n.take i) ++ n.drop i
      rw [he, cleanStem, truncateStem_of_le hlen]
      have hTex : '/' ∉ stripU (collapse (subStem w (n.take i))) ++ '.' :: e := by
        intro hm
        rcases List.mem_append.mp hm with hm | hm
        · exact no_slash_stripped hwu hws _ hm
        · rcases List.mem_cons.mp hm with hm | hm
          · exact absurd hm.symm (by decide)
          · have : '/' ∈ n.drop i := by rw [he]; exact List.mem_cons_of_mem _ hm
            exact hns (List.mem_of_mem_drop this)
      show cleanStem w (pathSplit (pathNameComponent
          (stripU (collapse (subStem w (n.take i))) ++ '.' :: e))).1 ++
        (pathSplit (pathNameComponent
          (stripU (collapse (subStem w (n.take i))) ++ '.' :: e))).2 =
        stripU (collapse (subStem w (n.take i))) ++ '.' :: e
      rw [pathName_id_of_no_slash hTex, pathSplit_append_ext hne hee hen]
      show cleanStem w (stripU (collapse (subStem w (n.take i)))) ++ '.' :: e =
        stripU (collapse (subStem w (n.take i))) ++ '.' :: e
      rw [cleanStem_stripped_fixed hwu _ hlen]
    · -- the last dot gives no valid suffix split
      have hps : pathSplit n = (n, []) := pathSplit_invalid (Or.inr ⟨i, hldi, hv⟩)
      have hi_lt := ldi_lt_length hldi
      have hQ : lastDotIdx n = none ∨
          ∃ j, lastDotIdx n = some j ∧ (j = 0 ∨ j + 1 = n.length) :=
        Or.inr ⟨i, hldi, by omega⟩
      rw [hps] at hne hlen ⊢
      show sanitize_filename w (cleanStem w n ++ []) = cleanStem w n ++ []
      rw [List.append_nil, cleanStem, truncateStem_of_le hlen]
      exact sanitize_of_clean_self hwu hws n hQ hlen

set_option maxRecDepth 8000 in
/-- C7 fails on the code: sanitize is not idempotent, in two ways, both
exhibited here on pure-ASCII inputs (where `asciiWord` agrees with
CPython's `\w`).  First, the stem of `#.a b` cleans to the empty string,
so sanitizing returns the bare extension `.a b`; sanitizing that again
treats `.a b` as a stem and replaces its space, giving `.a_b`.  Second,
the 101-character stem of `longTailName` is truncated to 100 characters,
ending in `_`, which the second pass strips. -/
theorem C7_counterexample :
    (sanitize_filename asciiWord (sanitize_filename asciiWord "#.a b".data) ≠
      sanitize_filename asciiWord "#.a b".data ∧
     sanitize_filename asciiWord "#.a b".data = ".a b".data ∧
     sanitize_filename asciiWord ".a b".data = ".a_b".data) ∧
    sanitize_filename asciiWord (sanitize_filename asciiWord longTailName) ≠
      sanitize_filename asciiWord longTailName := by
  refine ⟨⟨by decide, by decide, by decide⟩, by decide⟩

/-- C7 (amended): the upload-path congruence holds unconditionally —
equal sanitized names give equal upload paths — and sanitize is idempotent
for every name whose cleaned stem (after replacement, collapsing and
trimming, before truncation) is nonempty and at most 100 characters long;
these sufficient conditions exclude exactly the two exhibited failure
modes (a stem cleaned to empty leaves a bare extension that the second
pass cleans as a stem; truncation of a longer stem can expose a trailing
underscore that a second pass strips).  Both parts are proved for every
word-character classifier; the idempotence part assumes the two CPython
facts that underscore is a word character and slash is not. -/
theorem C7_path_congruence_and_idempotence :
    (∀ (w : Char → Bool) (uploadDir jobId n1 n2 : List Char),
      sanitize_filename w n1 = sanitize_filename w n2 →
      get_upload_path w uploadDir jobId n1 = get_upload_path w uploadDir jobId n2) ∧
    (∀ w : Char → Bool, w '_' = true → w '/' = false →
      ∀ filename : List Char,
      stripU (collapse (subStem w (pathSplit (pathNameComponent filename)).1)) ≠
        [] →
      (stripU (collapse
        (subStem w (pathSplit (pathNameComponent filename)).1))).length ≤ 100 →
      sanitize_filename w (sanitize_filename w filename) =
        sanitize_filename w filename) := by
  constructor
  · intro w uploadDir jobId n1 n2 h
    rw [get_upload_path, get_upload_path, h]
  · intro w hwu hws filename hne hlen
    have hns : '/' ∉ pathNameComponent filename := pathName_no_slash
    exact sanitize_idem_aux hwu hws (pathNameComponent filename) hns hne hlen

theorem C7_witness :
    asciiWord '_' = true ∧ asciiWord '/' = false ∧
    sanitize_filename asciiWord (sanitize_filename asciiWord "part.gcode".data) =
      sanitize_filename asciiWord "part.gcode".data ∧
    get_upload_path asciiWord "temp/uploads".data "j1".data "part.gcode".data =
      get_upload_path asciiWord "temp/uploads".data "j1".data "part.gcode".data :=
  ⟨by decide, by decide,
   C7_path_congruence_and_idempotence.2 asciiWord (by decide) (by decide)
     "part.gcode".data (by decide) (by decide),
   C7_path_congruence_and_idempotence.1 asciiWord _ _ _ _ rfl⟩
